import Mathlib

/-!
Verification of the hadith-atlas core engine (`src/app.py`) against its
natural-language specification.

Text is modelled as `List Char`; Unicode code points are compared through
`Char.toNat`.  Numeric scores are modelled as exact rationals; Python's
`round(x, 1)` (round half to even, per the language documentation) is
modelled by `r2e`/`roundTo1`.  Fallible values (`None` / `NaN`) are
modelled with `Option`.
-/

/-- The compiled character class `AR_DIACRITICS`
(`[ؗ-ًؚ-ْٰۖ-ۭ]`, app.py line 45). -/
def isArabicDiacritic (c : Char) : Bool :=
  decide ((0x617 ≤ c.toNat ∧ c.toNat ≤ 0x61A) ∨
          (0x64B ≤ c.toNat ∧ c.toNat ≤ 0x652) ∨
          c.toNat = 0x670 ∨
          (0x6D6 ≤ c.toNat ∧ c.toNat ≤ 0x6ED))

/-- The letter-variant folding of `normalize_ar` (app.py lines 51-52): the
three alef-hamza variants become bare alef, alef-maksura becomes yaa,
taa-marbuta becomes haa.  Each Python `str.replace` has a one-character
needle, so their composition is a pointwise map. -/
def mapLetter (c : Char) : Char :=
  if c = 'أ' ∨ c = 'إ' ∨ c = 'آ' then 'ا'
  else if c = 'ى' then 'ي'
  else if c = 'ة' then 'ه'
  else c

/-- The regex class `\s` (Python, Unicode mode): ASCII whitespace and
separator control characters plus the Unicode space separators. -/
def isWs (c : Char) : Bool :=
  decide (c.toNat = 0x20 ∨ c.toNat = 0x9 ∨ c.toNat = 0xA ∨ c.toNat = 0xB ∨
          c.toNat = 0xC ∨ c.toNat = 0xD ∨
          (0x1C ≤ c.toNat ∧ c.toNat ≤ 0x1F) ∨
          c.toNat = 0x85 ∨ c.toNat = 0xA0 ∨ c.toNat = 0x1680 ∨
          (0x2000 ≤ c.toNat ∧ c.toNat ≤ 0x200A) ∨
          c.toNat = 0x2028 ∨ c.toNat = 0x2029 ∨
          c.toNat = 0x202F ∨ c.toNat = 0x205F ∨ c.toNat = 0x3000)

/-- The regex class `\w`.  The embedding covers underscore, digits and the
ASCII letters exactly; the non-ASCII letters the application feeds through
this class all lie in the Arabic block `؀-ۿ`, which the keep set
below admits independently, so every property proved here is insensitive
to the remaining Unicode letters. -/
def isWordChar (c : Char) : Bool :=
  decide (c.toNat = 0x5F ∨
          (0x30 ≤ c.toNat ∧ c.toNat ≤ 0x39) ∨
          (0x41 ≤ c.toNat ∧ c.toNat ≤ 0x5A) ∨
          (0x61 ≤ c.toNat ∧ c.toNat ≤ 0x7A))

/-- A character survives the punctuation sweep
`re.sub(r"[^\w\s؀-ۿ]", " ", text)` (app.py line 53) iff it is a
word character, whitespace, or in the Arabic block. -/
def keepChar (c : Char) : Bool :=
  isWordChar c || isWs c || decide (0x600 ≤ c.toNat ∧ c.toNat ≤ 0x6FF)

/-- `re.sub(r"\s+", " ", text)` (app.py line 54): every maximal run of
whitespace characters becomes one single space. -/
def squeezeWs : List Char → List Char
  | [] => []
  | [c] => if isWs c then [' '] else [c]
  | c :: d :: rest =>
    if isWs c && isWs d then squeezeWs (d :: rest)
    else (if isWs c then ' ' else c) :: squeezeWs (d :: rest)

/-- Removal of trailing whitespace (the right half of `str.strip`). -/
def rstripWs : List Char → List Char
  | [] => []
  | c :: rest =>
    match rstripWs rest with
    | [] => if isWs c then [] else [c]
    | r => c :: r

/-- `str.strip()`: drop leading and trailing whitespace. -/
def stripWs (s : List Char) : List Char :=
  rstripWs (s.dropWhile isWs)

/-- Whitespace collapsing followed by stripping — the tail of
`normalize_ar` (app.py line 54). -/
def collapseWs (s : List Char) : List Char :=
  stripWs (squeezeWs s)

/-- `normalize_ar` (app.py lines 47-54): strip diacritics, fold letter
variants, sweep punctuation to spaces, collapse and trim whitespace. -/
def normalize_ar (s : List Char) : List Char :=
  if s = [] then []
  else
    collapseWs
      (((s.filter (fun c => !isArabicDiacritic c)).map mapLetter).map
        (fun c => if keepChar c then c else ' '))

/-- Helper for whitespace splitting: `acc` holds the (reversed) token
currently being read. -/
def splitWsAux : List Char → List Char → List (List Char)
  | [], acc => if acc = [] then [] else [acc.reverse]
  | c :: rest, acc =>
    if isWs c then
      (if acc = [] then splitWsAux rest [] else acc.reverse :: splitWsAux rest [])
    else splitWsAux rest (c :: acc)

/-- `str.split()` with no argument: split on whitespace runs, dropping
empty pieces. -/
def splitWs (s : List Char) : List (List Char) :=
  splitWsAux s []

/-- `tokenize_ar` (app.py lines 56-57). -/
def tokenize_ar (s : List Char) : List (List Char) :=
  splitWs (normalize_ar s)

/-- `needle` is an initial segment of the second list. -/
def leadsWith : List Char → List Char → Bool
  | [], _ => true
  | _ :: _, [] => false
  | a :: as, b :: bs => a == b && leadsWith as bs

/-- `needle` occurs contiguously inside `hay` — Python's `in` on strings
and `str.contains(tok, regex=False)`. -/
def occursIn (needle : List Char) : List Char → Bool
  | [] => leadsWith needle []
  | c :: rest => leadsWith needle (c :: rest) || occursIn needle rest

/-- Fuel-indexed worker for `Python str.replace(w, "")`: scan left to
right, deleting each non-overlapping occurrence of `w`.  One unit of fuel
is spent per consumed character, so `fuel = s.length` always suffices. -/
def replaceAllAux (w : List Char) : Nat → List Char → List Char
  | 0, s => s
  | _, [] => []
  | fuel + 1, c :: rest =>
    if leadsWith w (c :: rest) then
      replaceAllAux w fuel (rest.drop (w.length - 1))
    else c :: replaceAllAux w fuel rest

/-- `s.replace(w, "")` for a non-empty needle `w` (identity when `w` is
empty, which the caller never uses). -/
def replaceAll (w s : List Char) : List Char :=
  if w = [] then s else replaceAllAux w s.length s

/-- The narration-formula vocabulary removed by `normalize_isnad`
(app.py line 66), in source order. -/
def formulaWords : List (List Char) :=
  ["حدثنا".data, "اخبرنا".data, "قال".data, "سمعت".data, "عن".data]

/-- `normalize_isnad` (app.py lines 62-69).  `None`/`NaN` input is the
`none` case; `not isnad` catches the empty string.  Each vocabulary word
is removed by Python `str.replace`, i.e. substring removal, then
whitespace is collapsed and the result stripped. -/
def normalize_isnad : Option (List Char) → Option (List Char)
  | none => none
  | some s =>
    if s = [] then none
    else
      some (stripWs (squeezeWs (formulaWords.foldl (fun t w => replaceAll w t) (normalize_ar s))))

/-- The distinct group keys formed by `data.groupby("isnad_norm")`
(app.py line 221): pandas drops rows whose key is missing, so each
non-`none` canonical isnad — the empty string included — yields a group,
in first-seen order. -/
def path_keys (isnads : List (Option (List Char))) : List (List Char) :=
  (isnads.filterMap id).dedup

/-- `sum(1 for t in ref_tokens if t in cand_tokens)` (app.py line 79). -/
def shared_count (ref_tokens cand_tokens : List (List Char)) : Nat :=
  ref_tokens.countP (fun t => decide (t ∈ cand_tokens))

/-- `contains_core` (app.py lines 74-82). -/
def contains_core (reference candidate : List Char) : Bool :=
  let ref_tokens := tokenize_ar reference
  let cand_tokens := tokenize_ar candidate
  if ref_tokens = [] then false
  else if ref_tokens.length ≤ 4 then
    decide (ref_tokens.length - 1 ≤ shared_count ref_tokens cand_tokens)
  else
    decide ((8 : ℚ) / 10 ≤ (shared_count ref_tokens cand_tokens : ℚ) / ref_tokens.length)

/-- The AND search filter of `page_search` (app.py lines 147-151): a row
survives iff every query token occurs — as a substring, via
`str.contains(tok, regex=False)` — in the row's `matn_norm`
(`normalize_ar` of its matn, app.py line 90). -/
def all_tokens_and (query candidate : List Char) : Bool :=
  (tokenize_ar query).all (fun t => occursIn t (normalize_ar candidate))

/-- Round half to even, Python's `round` on non-negative and negative
rationals alike. -/
def r2e (x : ℚ) : ℤ :=
  if x - ⌊x⌋ < 1 / 2 then ⌊x⌋
  else if 1 / 2 < x - ⌊x⌋ then ⌊x⌋ + 1
  else if ⌊x⌋ % 2 = 0 then ⌊x⌋ else ⌊x⌋ + 1

/-- Python `round(x, 1)`. -/
def roundTo1 (x : ℚ) : ℚ :=
  (r2e (10 * x) : ℚ) / 10

/-- The unit score of `page_analysis` for a non-empty score list:
`round(sum(scores) / len(scores), 1)` (app.py line 234). -/
def finalScore (scores : List ℚ) : ℚ :=
  roundTo1 (scores.sum / scores.length)

/-- The aggregate of `page_analysis` (app.py lines 233-237): no score is
rendered when the score list is empty. -/
def aggregate (scores : List ℚ) : Option ℚ :=
  if scores = [] then none else some (finalScore scores)

/-- Modelled from the spec (§4.6 AttestationScorer), which documents a
weighted formula absent from the source: with `n` paths, best score
`maxScore`, mean `avgScore` and a single-strong-path bonus,
`clamp(0.6·maxScore + 0.3·avgScore + 0.1·min(n,5) + referenceBonus, 0, 10)`
rounded to one decimal place.  Kept solely to compare the spec's formula
with the implemented one. -/
def specAggregate (scores : List ℚ) : Option ℚ :=
  if scores = [] then none
  else
    some (roundTo1 (max 0 (min 10
      (6 / 10 * scores.foldr max 0 + 3 / 10 * (scores.sum / scores.length) +
        1 / 10 * min (scores.length : ℚ) 5 +
        if scores.length = 1 ∧ 8 ≤ scores.foldr max 0 then 1 else 0))))

/-- `render_bar` (app.py lines 99-120) as a data contract: ten flags, the
`i`-th active iff `i ≤ int(round(score)) - 1`. -/
def render_bar (score : ℚ) : List Bool :=
  (List.range 10).map (fun i : ℕ => decide ((i : ℤ) ≤ r2e score - 1))

/-- No two adjacent whitespace characters — the shape invariant that
whitespace collapsing establishes. -/
def noWsRun : List Char → Bool
  | [] => true
  | [_] => true
  | c :: d :: rest => !(isWs c && isWs d) && noWsRun (d :: rest)

/-! ### Properties of the rounding function -/

lemma floor_le_r2e (x : ℚ) : ⌊x⌋ ≤ r2e x := by
  unfold r2e; split_ifs <;> omega

lemma r2e_le_floor_add_one (x : ℚ) : r2e x ≤ ⌊x⌋ + 1 := by
  unfold r2e; split_ifs <;> omega

lemma r2e_mono {x y : ℚ} (h : x ≤ y) : r2e x ≤ r2e y := by
  have hf : ⌊x⌋ ≤ ⌊y⌋ := Int.floor_le_floor h
  rcases lt_or_eq_of_le hf with hlt | heq
  · calc r2e x ≤ ⌊x⌋ + 1 := r2e_le_floor_add_one x
      _ ≤ ⌊y⌋ := by omega
      _ ≤ r2e y := floor_le_r2e y
  · unfold r2e
    rw [← heq]
    split_ifs <;> first | omega | linarith

lemma r2e_nonneg {x : ℚ} (hx : 0 ≤ x) : 0 ≤ r2e x := by
  have h := Int.floor_nonneg.mpr hx
  have h2 := floor_le_r2e x
  omega

lemma r2e_le_intCast {x : ℚ} {c : ℤ} (h : x ≤ c) : r2e x ≤ c := by
  unfold r2e
  split_ifs with h1 h2 h3
  · have : ⌊x⌋ ≤ ⌊(c : ℚ)⌋ := Int.floor_le_floor h
    simpa [Int.floor_intCast] using this
  · have hx : (⌊x⌋ : ℚ) ≤ x - 1 / 2 := by linarith
    have : (⌊x⌋ : ℚ) < c := by linarith
    have : ⌊x⌋ < c := by exact_mod_cast this
    omega
  · have hx : (⌊x⌋ : ℚ) = x - 1 / 2 := by push_neg at h1 h2; linarith
    have : (⌊x⌋ : ℚ) < c := by linarith
    have : ⌊x⌋ < c := by exact_mod_cast this
    omega
  · have hx : (⌊x⌋ : ℚ) = x - 1 / 2 := by push_neg at h1 h2; linarith
    have : (⌊x⌋ : ℚ) < c := by linarith
    have : ⌊x⌋ < c := by exact_mod_cast this
    omega

lemma r2e_intCast (n : ℤ) : r2e ((n : ℚ)) = n := by
  unfold r2e
  rw [Int.floor_intCast]
  rw [if_pos (by norm_num)]

/-! ### Properties of the implemented aggregate -/

lemma finalScore_nonneg {l : List ℚ} (h : ∀ s ∈ l, 0 ≤ s) : 0 ≤ finalScore l := by
  unfold finalScore roundTo1
  have hsum : 0 ≤ l.sum := List.sum_nonneg h
  have hq : 0 ≤ 10 * (l.sum / (l.length : ℚ)) := by positivity
  have hr := r2e_nonneg hq
  have : (0 : ℚ) ≤ (r2e (10 * (l.sum / (l.length : ℚ))) : ℚ) := by exact_mod_cast hr
  linarith

lemma finalScore_le_ten {l : List ℚ} (hne : l ≠ []) (h : ∀ s ∈ l, s ≤ 10) :
    finalScore l ≤ 10 := by
  unfold finalScore roundTo1
  have hpos : 0 < (l.length : ℚ) := by
    have : 0 < l.length := List.length_pos.mpr hne
    exact_mod_cast this
  have hsum : l.sum ≤ l.length • (10 : ℚ) := List.sum_le_card_nsmul l 10 h
  have hsum' : l.sum ≤ (l.length : ℚ) * 10 := by
    simpa [nsmul_eq_mul] using hsum
  have hmean : l.sum / (l.length : ℚ) ≤ 10 := by
    rw [div_le_iff₀ hpos]; linarith
  have harg : 10 * (l.sum / (l.length : ℚ)) ≤ ((100 : ℤ) : ℚ) := by
    push_cast; linarith
  have hr : r2e (10 * (l.sum / (l.length : ℚ))) ≤ 100 := r2e_le_intCast harg
  have : (r2e (10 * (l.sum / (l.length : ℚ))) : ℚ) ≤ 100 := by exact_mod_cast hr
  linarith

lemma finalScore_mono (pre post : List ℚ) {x y : ℚ} (h : x ≤ y) :
    finalScore (pre ++ x :: post) ≤ finalScore (pre ++ y :: post) := by
  unfold finalScore roundTo1
  have hlen : (pre ++ x :: post).length = (pre ++ y :: post).length := by simp
  have hpos : 0 < ((pre ++ x :: post).length : ℚ) := by
    have : 0 < (pre ++ x :: post).length := by simp
    exact_mod_cast this
  have hsum : (pre ++ x :: post).sum ≤ (pre ++ y :: post).sum := by
    simp only [List.sum_append, List.sum_cons]
    linarith
  have hdiv : (pre ++ x :: post).sum / ((pre ++ x :: post).length : ℚ) ≤
      (pre ++ y :: post).sum / ((pre ++ y :: post).length : ℚ) := by
    rw [← hlen]
    exact div_le_div_of_nonneg_right hsum hpos.le
  have hr := r2e_mono (mul_le_mul_of_nonneg_left hdiv (by norm_num : (0:ℚ) ≤ 10))
  have : ((r2e (10 * ((pre ++ x :: post).sum / ((pre ++ x :: post).length : ℚ)))) : ℚ) ≤
      ((r2e (10 * ((pre ++ y :: post).sum / ((pre ++ y :: post).length : ℚ)))) : ℚ) := by
    exact_mod_cast hr
  linarith

/-- C4: for every non-empty sequence of path scores, each in [0,10], the
aggregate is monotonic non-decreasing in each individual path score with
the other scores held fixed, and its value always lies in [0,10]. -/
theorem aggregate_monotone_bounded (pre post : List ℚ) (x y : ℚ)
    (hx : 0 ≤ x) (hxy : x ≤ y) (hy : y ≤ 10)
    (hall : ∀ s ∈ pre ++ post, 0 ≤ s ∧ s ≤ 10) :
    ∃ a b : ℚ, aggregate (pre ++ x :: post) = some a ∧
      aggregate (pre ++ y :: post) = some b ∧
      a ≤ b ∧ 0 ≤ a ∧ a ≤ 10 ∧ 0 ≤ b ∧ b ≤ 10 := by
  have hxall : ∀ s ∈ pre ++ x :: post, 0 ≤ s ∧ s ≤ 10 := by
    intro s hs
    rcases List.mem_append.mp hs with h | h
    · exact hall s (List.mem_append.mpr (Or.inl h))
    · rcases List.mem_cons.mp h with rfl | h
      · exact ⟨hx, le_trans hxy hy⟩
      · exact hall s (List.mem_append.mpr (Or.inr h))
  have hyall : ∀ s ∈ pre ++ y :: post, 0 ≤ s ∧ s ≤ 10 := by
    intro s hs
    rcases List.mem_append.mp hs with h | h
    · exact hall s (List.mem_append.mpr (Or.inl h))
    · rcases List.mem_cons.mp h with rfl | h
      · exact ⟨le_trans hx hxy, hy⟩
      · exact hall s (List.mem_append.mpr (Or.inr h))
  refine ⟨finalScore (pre ++ x :: post), finalScore (pre ++ y :: post), ?_, ?_, ?_, ?_, ?_, ?_, ?_⟩
  · unfold aggregate; rw [if_neg (by simp)]
  · unfold aggregate; rw [if_neg (by simp)]
  · exact finalScore_mono pre post hxy
  · exact finalScore_nonneg (fun s hs => (hxall s hs).1)
  · exact finalScore_le_ten (by simp) (fun s hs => (hxall s hs).2)
  · exact finalScore_nonneg (fun s hs => (hyall s hs).1)
  · exact finalScore_le_ten (by simp) (fun s hs => (hyall s hs).2)

/-- Witness for C4 at the concrete instance `[3, 8]` versus `[5, 8]`. -/
theorem aggregate_monotone_bounded_witness :
    ∃ a b : ℚ, aggregate ([] ++ (3 : ℚ) :: [8]) = some a ∧
      aggregate ([] ++ (5 : ℚ) :: [8]) = some b ∧
      a ≤ b ∧ 0 ≤ a ∧ a ≤ 10 ∧ 0 ≤ b ∧ b ≤ 10 :=
  aggregate_monotone_bounded [] [8] 3 5 (by norm_num) (by norm_num) (by norm_num)
    (by intro s hs; simp only [List.nil_append, List.mem_singleton] at hs
        subst hs; constructor <;> norm_num)

lemma roundTo1_of_mul_eq {x : ℚ} {n : ℤ} (h : 10 * x = (n : ℚ)) :
    roundTo1 x = (n : ℚ) / 10 := by
  unfold roundTo1
  rw [h, r2e_intCast]

lemma aggregate_nine_seven_five : aggregate [(9 : ℚ), 7, 5] = some 7 := by
  have hsum : ([(9 : ℚ), 7, 5]).sum = 21 := by
    simp [List.sum_cons]; norm_num
  unfold aggregate finalScore
  rw [if_neg (by simp), hsum]
  rw [roundTo1_of_mul_eq (n := 70) (by norm_num)]
  norm_num

lemma specAggregate_nine_seven_five : specAggregate [(9 : ℚ), 7, 5] = some (39 / 5) := by
  have hsum : ([(9 : ℚ), 7, 5]).sum = 21 := by
    simp [List.sum_cons]; norm_num
  have hmax : ([(9 : ℚ), 7, 5]).foldr max 0 = 9 := by
    simp only [List.foldr]
    rw [max_eq_left (by norm_num : (0 : ℚ) ≤ 5),
        max_eq_left (by norm_num : (5 : ℚ) ≤ 7),
        max_eq_left (by norm_num : (7 : ℚ) ≤ 9)]
  unfold specAggregate
  rw [if_neg (by simp), hsum, hmax]
  have hlen : ([(9 : ℚ), 7, 5]).length = 3 := by rfl
  rw [hlen]
  rw [if_neg (by simp)]
  have hmin5 : min ((3 : ℕ) : ℚ) 5 = 3 := by
    rw [min_eq_left (by norm_num)]; norm_num
  rw [hmin5]
  have hinner : 6 / 10 * (9 : ℚ) + 3 / 10 * (21 / ((3 : ℕ) : ℚ)) + 1 / 10 * 3 + 0 = 78 / 10 := by
    push_cast; norm_num
  rw [hinner]
  rw [min_eq_right (by norm_num : (78 : ℚ) / 10 ≤ 10),
      max_eq_right (by norm_num : (0 : ℚ) ≤ 78 / 10)]
  rw [roundTo1_of_mul_eq (n := 78) (by norm_num)]
  norm_num

/-- C1 counterexample: on `[9, 7, 5]` the implemented aggregate — the
rounded arithmetic mean — yields 7.0, not the 7.8 demanded by the spec's
weighted formula (modelled verbatim by `specAggregate`). -/
theorem aggregate_weighted_formula_counterexample :
    aggregate [(9 : ℚ), 7, 5] = some 7 ∧
    specAggregate [(9 : ℚ), 7, 5] = some (39 / 5) ∧ (7 : ℚ) ≠ 39 / 5 :=
  ⟨aggregate_nine_seven_five, specAggregate_nine_seven_five, by norm_num⟩

/-- C1 (amended): for every non-empty sequence of path scores, each in
[0,10], the unit-level aggregate equals the arithmetic mean of the scores
rounded to one decimal place; in particular the aggregate of `[9, 7, 5]`
is 7.0. -/
theorem aggregate_is_rounded_mean :
    (∀ scores : List ℚ, scores ≠ [] → (∀ s ∈ scores, 0 ≤ s ∧ s ≤ 10) →
      aggregate scores = some (roundTo1 (scores.sum / scores.length))) ∧
    aggregate [(9 : ℚ), 7, 5] = some 7 := by
  refine ⟨fun scores hne _ => ?_, aggregate_nine_seven_five⟩
  unfold aggregate finalScore
  rw [if_neg hne]

/-- Witness for C1 (amended) at the concrete input `[9, 7, 5]`. -/
theorem aggregate_is_rounded_mean_witness :
    aggregate [(9 : ℚ), 7, 5] =
      some (roundTo1 (([(9 : ℚ), 7, 5]).sum / ([(9 : ℚ), 7, 5]).length)) :=
  aggregate_is_rounded_mean.1 [9, 7, 5] (by simp)
    (by intro s hs; fin_cases hs <;> constructor <;> norm_num)

/-! ### Properties of the visual bar -/

lemma render_bar_getD (score : ℚ) {i : Nat} (hi : i < 10) :
    (render_bar score).getD i false = decide ((i : ℤ) ≤ r2e score - 1) := by
  have hr : List.range 10 = [0, 1, 2, 3, 4, 5, 6, 7, 8, 9] := by rfl
  unfold render_bar
  rw [hr]
  interval_cases i <;> simp [List.getD]

/-- C9 counterexample: at score 0 the rendered bar has no active position
at all, contradicting the claim that position `clamp(round(score)-1,0,9)`
is active for every score. -/
theorem render_bar_zero_counterexample :
    render_bar 0 = List.replicate 10 false := by
  have h0 : r2e 0 = 0 := by
    have h := r2e_intCast 0
    simpa using h
  unfold render_bar
  simp only [h0]
  decide

/-- C9 (amended): `render_bar` yields exactly 10 flags, flag `i` active
iff `i ≤ round(score) - 1`; whenever `round(score) ≥ 1` this means
position `clamp(round(score)-1, 0, 9)` and all lower positions are active
and the rest inactive, but when `round(score) ≤ 0` — score 0 included —
every position is inactive. -/
theorem render_bar_flags (score : ℚ) :
    (render_bar score).length = 10 ∧
    (∀ i, i < 10 → ((render_bar score).getD i false = true ↔ (i : ℤ) ≤ r2e score - 1)) ∧
    (r2e score ≤ 0 → ∀ b ∈ render_bar score, b = false) ∧
    (1 ≤ r2e score → ∀ i, i < 10 →
      ((render_bar score).getD i false = true ↔ (i : ℤ) ≤ min (r2e score - 1) 9)) := by
  have hlen : (render_bar score).length = 10 := by
    unfold render_bar
    rw [List.length_map, List.length_range]
  refine ⟨hlen, ?_, ?_, ?_⟩
  · intro i hi
    rw [render_bar_getD score hi]
    simp
  · intro hneg b hb
    unfold render_bar at hb
    rcases List.mem_map.mp hb with ⟨i, hi, rfl⟩
    have hi10 : i < 10 := by simpa using hi
    simp only [decide_eq_false_iff_not]
    omega
  · intro hpos i hi
    rw [render_bar_getD score hi]
    simp only [decide_eq_true_eq]
    omega

/-- Witness for C9 (amended) at score 8: ten flags, position 6 active. -/
theorem render_bar_flags_witness :
    (render_bar 8).length = 10 ∧
    ((render_bar 8).getD 6 false = true ↔ (6 : ℤ) ≤ min (r2e 8 - 1) 9) := by
  have h8 : r2e 8 = 8 := by
    have h := r2e_intCast 8
    simpa using h
  exact ⟨(render_bar_flags 8).1,
    (render_bar_flags 8).2.2.2 (by omega) 6 (by norm_num)⟩

/-! ### Properties of the matchers -/

/-- C10: when the reference tokenizes to a single token, the short-phrase
branch of `contains_core` only demands `shared ≥ 0`, so every candidate —
one sharing no token with the reference included — matches. -/
theorem contains_core_single_token (r c : List Char)
    (h : (tokenize_ar r).length = 1) : contains_core r c = true := by
  unfold contains_core
  have hne : tokenize_ar r ≠ [] := by
    intro hnil
    rw [hnil] at h
    simp at h
  rw [if_neg hne, if_pos (by omega)]
  simp [h]

/-- Witness for C10: a one-token reference matches a candidate with which
it shares nothing. -/
theorem contains_core_single_token_witness :
    (tokenize_ar "ab".data).length = 1 ∧ contains_core "ab".data "zz q".data = true :=
  ⟨by decide, contains_core_single_token "ab".data "zz q".data (by decide)⟩

/-- C6: `contains_core` holds between any text with a non-empty
tokenization and itself. -/
theorem contains_core_reflexive (x : List Char) (h : tokenize_ar x ≠ []) :
    contains_core x x = true := by
  unfold contains_core
  rw [if_neg h]
  have hshared : shared_count (tokenize_ar x) (tokenize_ar x) = (tokenize_ar x).length := by
    unfold shared_count
    rw [List.countP_eq_length]
    intro t ht
    simpa using ht
  by_cases hlen : (tokenize_ar x).length ≤ 4
  · rw [if_pos hlen]
    simp [hshared]
  · rw [if_neg hlen, hshared]
    have hpos : 0 < (tokenize_ar x).length := List.length_pos.mpr h
    have hdiv : ((tokenize_ar x).length : ℚ) / ((tokenize_ar x).length : ℚ) = 1 :=
      div_self (by exact_mod_cast Nat.pos_iff_ne_zero.mp hpos)
    rw [hdiv]
    simp only [decide_eq_true_eq]
    norm_num

/-- Witness for C6 at a concrete non-empty text. -/
theorem contains_core_reflexive_witness :
    tokenize_ar "ab".data ≠ [] ∧ contains_core "ab".data "ab".data = true :=
  ⟨by decide, contains_core_reflexive "ab".data (by decide)⟩

/-- C2 counterexample: the two-token reference "ab cd" matches the
candidate "ab" although the token "cd" is absent — the implemented
short-phrase branch tolerates one missing token, not zero. -/
theorem contains_core_short_tolerance_counterexample :
    contains_core "ab cd".data "ab".data = true ∧
    shared_count (tokenize_ar "ab cd".data) (tokenize_ar "ab".data) = 1 ∧
    (tokenize_ar "ab cd".data).length = 2 ∧
    "cd".data ∈ tokenize_ar "ab cd".data ∧ "cd".data ∉ tokenize_ar "ab".data := by
  decide

/-- C2 (amended): for a reference with 1 ≤ |R| ≤ 4 tokens,
`contains_core` accepts iff at least |R| − 1 reference tokens occur in
the candidate's token set (one missing token is tolerated); for |R| > 4
it accepts iff `shared / |R| ≥ 0.8`. -/
theorem contains_core_branch_rules (r c : List Char) (h : tokenize_ar r ≠ []) :
    ((tokenize_ar r).length ≤ 4 →
      (contains_core r c = true ↔
        (tokenize_ar r).length - 1 ≤ shared_count (tokenize_ar r) (tokenize_ar c))) ∧
    (4 < (tokenize_ar r).length →
      (contains_core r c = true ↔
        (8 : ℚ) / 10 ≤ (shared_count (tokenize_ar r) (tokenize_ar c) : ℚ) /
          (tokenize_ar r).length)) := by
  unfold contains_core
  rw [if_neg h]
  constructor
  · intro hlen
    rw [if_pos hlen]
    simp
  · intro hlen
    rw [if_neg (by omega)]
    simp

/-- Witness for C2 (amended) at the short-phrase instance. -/
theorem contains_core_branch_rules_witness :
    contains_core "ab cd".data "ab".data = true ↔
      (tokenize_ar "ab cd".data).length - 1 ≤
        shared_count (tokenize_ar "ab cd".data) (tokenize_ar "ab".data) :=
  (contains_core_branch_rules "ab cd".data "ab".data (by decide)).1 (by decide)

lemma leadsWith_iff (n h : List Char) : leadsWith n h = true ↔ n <+: h := by
  induction n generalizing h with
  | nil => simp [leadsWith]
  | cons a as ih =>
    cases h with
    | nil => simp [leadsWith]
    | cons b bs => simp [leadsWith, ih, List.cons_prefix_cons]

lemma occursIn_iff (n h : List Char) : occursIn n h = true ↔ n <:+: h := by
  induction h with
  | nil => simp [occursIn, leadsWith_iff]
  | cons c rest ih => simp [occursIn, leadsWith_iff, ih, List.infix_cons_iff]

/-- C8 counterexample: the one-token query "an" is accepted by the AND
search against the text "ban d" although "an" is not one of its tokens —
the filter tests substring containment, not token-set membership. -/
theorem all_tokens_and_counterexample :
    all_tokens_and "an".data "ban d".data = true ∧
    "an".data ∈ tokenize_ar "an".data ∧
    "an".data ∉ tokenize_ar "ban d".data := by
  decide

/-- C8 (amended): the AND search strategy accepts iff every token of the
tokenized query occurs as a contiguous substring of the normalized
candidate text (not necessarily as a whole token). -/
theorem all_tokens_and_substring_semantics (q c : List Char) :
    all_tokens_and q c = true ↔ ∀ t ∈ tokenize_ar q, t <:+: normalize_ar c := by
  unfold all_tokens_and
  rw [List.all_eq_true]
  constructor
  · intro h t ht
    exact (occursIn_iff t (normalize_ar c)).mp (h t ht)
  · intro h t ht
    exact (occursIn_iff t (normalize_ar c)).mpr (h t ht)

/-! ### Properties of isnad canonicalization -/

/-- C3: evaluation at the failing input — the narrator name "معن"
contains the formula word "عن" as a proper substring, and substring
removal corrupts it to "م" instead of preserving the token. -/
theorem normalize_isnad_corrupts_name :
    normalize_isnad (some "معن".data) = some "م".data := by
  decide

/-- C7 counterexample: an isnad consisting of the single formula word
"قال" canonicalizes to the empty string, not to `none`, although the
claim says an empty post-removal result yields undefined. -/
theorem normalize_isnad_empty_result_counterexample :
    normalize_isnad (some "قال".data) = some [] ∧
    (some ([] : List Char) ≠ none) := by
  constructor
  · decide
  · simp

/-- C7 (amended): `normalize_isnad` yields `none` exactly for missing or
empty raw input; when formula-word removal empties the text the result is
the empty string, not `none`; grouping drops records with a `none` key,
while an empty-string canonical isnad does form a narration path. -/
theorem normalize_isnad_none_cases :
    normalize_isnad none = none ∧
    (∀ s : List Char, normalize_isnad (some s) = none ↔ s = []) ∧
    (∀ isnads : List (Option (List Char)), path_keys (none :: isnads) = path_keys isnads) ∧
    path_keys [some []] = [[]] := by
  refine ⟨rfl, ?_, ?_, by decide⟩
  · intro s
    constructor
    · intro h
      by_contra hne
      simp [normalize_isnad, hne] at h
    · rintro rfl
      rfl
  · intro isnads
    unfold path_keys
    rfl

/-! ### Idempotence of normalization -/

lemma mapLetter_hamza {c : Char} (h : c = 'أ' ∨ c = 'إ' ∨ c = 'آ') :
    mapLetter c = 'ا' := by
  unfold mapLetter
  rw [if_pos h]

lemma mapLetter_maksura {c : Char} (h1 : ¬(c = 'أ' ∨ c = 'إ' ∨ c = 'آ')) (h2 : c = 'ى') :
    mapLetter c = 'ي' := by
  unfold mapLetter
  rw [if_neg h1, if_pos h2]

lemma mapLetter_marbuta {c : Char} (h1 : ¬(c = 'أ' ∨ c = 'إ' ∨ c = 'آ')) (h2 : c ≠ 'ى')
    (h3 : c = 'ة') : mapLetter c = 'ه' := by
  unfold mapLetter
  rw [if_neg h1, if_neg h2, if_pos h3]

lemma mapLetter_fix {c : Char} (h1 : ¬(c = 'أ' ∨ c = 'إ' ∨ c = 'آ')) (h2 : c ≠ 'ى')
    (h3 : c ≠ 'ة') : mapLetter c = c := by
  unfold mapLetter
  rw [if_neg h1, if_neg h2, if_neg h3]

lemma mapLetter_mapLetter (c : Char) : mapLetter (mapLetter c) = mapLetter c := by
  by_cases h1 : c = 'أ' ∨ c = 'إ' ∨ c = 'آ'
  · rw [mapLetter_hamza h1]
    decide
  · by_cases h2 : c = 'ى'
    · rw [mapLetter_maksura h1 h2]
      decide
    · by_cases h3 : c = 'ة'
      · rw [mapLetter_marbuta h1 h2 h3]
        decide
      · rw [mapLetter_fix h1 h2 h3, mapLetter_fix h1 h2 h3]

lemma mapLetter_nondiacritic {c : Char} (h : isArabicDiacritic c = false) :
    isArabicDiacritic (mapLetter c) = false := by
  by_cases h1 : c = 'أ' ∨ c = 'إ' ∨ c = 'آ'
  · rw [mapLetter_hamza h1]
    decide
  · by_cases h2 : c = 'ى'
    · rw [mapLetter_maksura h1 h2]
      decide
    · by_cases h3 : c = 'ة'
      · rw [mapLetter_marbuta h1 h2 h3]
        decide
      · rwa [mapLetter_fix h1 h2 h3]

lemma squeezeWs_ws_mem {s : List Char} {c : Char} (hc : c ∈ squeezeWs s)
    (hw : isWs c = true) : c = ' ' := by
  induction s with
  | nil => simp [squeezeWs] at hc
  | cons a t ih =>
    cases t with
    | nil =>
      by_cases ha : isWs a = true
      · simp [squeezeWs, ha] at hc
        exact hc
      · simp [squeezeWs, ha] at hc
        rw [hc] at hw
        exact absurd hw (by simpa using ha)
    | cons b t' =>
      by_cases hab : (isWs a && isWs b) = true
      · rw [squeezeWs, if_pos hab] at hc
        exact ih hc
      · rw [squeezeWs, if_neg hab] at hc
        rcases List.mem_cons.mp hc with h | h
        · by_cases ha : isWs a = true
          · simp [ha] at h
            exact h
          · simp [ha] at h
            rw [h] at hw
            exact absurd hw (by simpa using ha)
        · exact ih h

lemma squeezeWs_mem {s : List Char} {c : Char} (hc : c ∈ squeezeWs s) :
    c = ' ' ∨ c ∈ s := by
  induction s with
  | nil => simp [squeezeWs] at hc
  | cons a t ih =>
    cases t with
    | nil =>
      by_cases ha : isWs a = true
      · simp [squeezeWs, ha] at hc
        exact Or.inl hc
      · simp [squeezeWs, ha] at hc
        exact Or.inr (by simp [hc])
    | cons b t' =>
      by_cases hab : (isWs a && isWs b) = true
      · rw [squeezeWs, if_pos hab] at hc
        rcases ih hc with h | h
        · exact Or.inl h
        · exact Or.inr (List.mem_cons_of_mem a h)
      · rw [squeezeWs, if_neg hab] at hc
        rcases List.mem_cons.mp hc with h | h
        · by_cases ha : isWs a = true
          · simp [ha] at h
            exact Or.inl h
          · simp [ha] at h
            exact Or.inr (by simp [h])
        · rcases ih h with h' | h'
          · exact Or.inl h'
          · exact Or.inr (List.mem_cons_of_mem a h')

lemma squeezeWs_cons_not_ws (d : Char) (rest : List Char) (hd : isWs d = false) :
    ∃ t, squeezeWs (d :: rest) = d :: t := by
  cases rest with
  | nil =>
    refine ⟨[], ?_⟩
    simp [squeezeWs, hd]
  | cons e r =>
    refine ⟨squeezeWs (e :: r), ?_⟩
    rw [squeezeWs, if_neg (by simp [hd]), if_neg (by simp [hd])]

lemma noWsRun_tail {a : Char} {t : List Char} (h : noWsRun (a :: t) = true) :
    noWsRun t = true := by
  cases t with
  | nil => rfl
  | cons b t' =>
    rw [noWsRun] at h
    simp only [Bool.and_eq_true] at h
    exact h.2

lemma squeezeWs_noRun (s : List Char) : noWsRun (squeezeWs s) = true := by
  induction s with
  | nil => rfl
  | cons a t ih =>
    cases t with
    | nil =>
      by_cases ha : isWs a = true
      · simp [squeezeWs, ha, noWsRun]
      · simp [squeezeWs, ha, noWsRun]
    | cons b t' =>
      by_cases hab : (isWs a && isWs b) = true
      · rw [squeezeWs, if_pos hab]
        exact ih
      · rw [squeezeWs, if_neg hab]
        rcases hsq : squeezeWs (b :: t') with _ | ⟨y, ys⟩
        · simp [noWsRun]
        · rw [noWsRun]
          simp only [Bool.and_eq_true]
          refine ⟨?_, by rw [← hsq]; exact ih⟩
          by_cases ha : isWs a = true
          · have hb : isWs b = false := by
              rcases Bool.eq_false_or_eq_true (isWs b) with h | h
              · exact absurd (by simp [ha, h]) hab
              · exact h
            rcases squeezeWs_cons_not_ws b t' hb with ⟨t'', ht''⟩
            rw [ht''] at hsq
            injection hsq with hy _
            simp [ha, ← hy, hb]
          · simp [ha]

lemma squeezeWs_eq_self {s : List Char} (h1 : ∀ c ∈ s, isWs c = true → c = ' ')
    (h2 : noWsRun s = true) : squeezeWs s = s := by
  induction s with
  | nil => rfl
  | cons a t ih =>
    cases t with
    | nil =>
      by_cases ha : isWs a = true
      · have := h1 a (by simp) ha
        simp [squeezeWs, ha, this]
      · simp [squeezeWs, ha]
    | cons b t' =>
      have hab : (isWs a && isWs b) ≠ true := by
        intro hc
        rw [noWsRun] at h2
        simp only [Bool.and_eq_true] at h2
        rw [hc] at h2
        simp at h2
      rw [squeezeWs, if_neg hab]
      have htail : squeezeWs (b :: t') = b :: t' :=
        ih (fun c hc hw => h1 c (List.mem_cons_of_mem a hc) hw) (noWsRun_tail h2)
      rw [htail]
      by_cases ha : isWs a = true
      · rw [if_pos ha, h1 a (by simp) ha]
      · rw [if_neg ha]

lemma mem_of_mem_dropWhileWs {l : List Char} {c : Char}
    (h : c ∈ l.dropWhile isWs) : c ∈ l := by
  induction l with
  | nil => simp at h
  | cons a t ih =>
    rw [List.dropWhile_cons] at h
    by_cases ha : isWs a = true
    · rw [if_pos ha] at h
      exact List.mem_cons_of_mem a (ih h)
    · rw [if_neg ha] at h
      exact h

lemma dropWhileWs_head {l : List Char} {c : Char}
    (h : (l.dropWhile isWs).head? = some c) : isWs c = false := by
  induction l with
  | nil => simp at h
  | cons a t ih =>
    rw [List.dropWhile_cons] at h
    by_cases ha : isWs a = true
    · rw [if_pos ha] at h
      exact ih h
    · rw [if_neg ha] at h
      simp at h
      rw [← h]
      simpa using ha

lemma noWsRun_dropWhileWs {l : List Char} (h : noWsRun l = true) :
    noWsRun (l.dropWhile isWs) = true := by
  induction l with
  | nil => rfl
  | cons a t ih =>
    rw [List.dropWhile_cons]
    by_cases ha : isWs a = true
    · rw [if_pos ha]
      exact ih (noWsRun_tail h)
    · rw [if_neg ha]
      exact h

lemma dropWhileWs_eq_self {l : List Char}
    (h : ∀ c, l.head? = some c → isWs c = false) : l.dropWhile isWs = l := by
  cases l with
  | nil => rfl
  | cons a t =>
    rw [List.dropWhile_cons, if_neg (by simp [h a rfl])]

lemma rstripWs_mem {l : List Char} {c : Char} (h : c ∈ rstripWs l) : c ∈ l := by
  induction l with
  | nil => simp [rstripWs] at h
  | cons a t ih =>
    rw [rstripWs] at h
    rcases hr : rstripWs t with _ | ⟨r0, rs⟩
    · rw [hr] at h
      by_cases ha : isWs a = true
      · simp [ha] at h
      · simp [ha] at h
        simp [h]
    · rw [hr] at h
      rcases List.mem_cons.mp h with h' | h'
      · simp [h']
      · exact List.mem_cons_of_mem a (ih (by rw [hr]; exact h'))

lemma rstripWs_getLast {l : List Char} {c : Char}
    (h : (rstripWs l).getLast? = some c) : isWs c = false := by
  induction l with
  | nil => simp [rstripWs] at h
  | cons a t ih =>
    rw [rstripWs] at h
    rcases hr : rstripWs t with _ | ⟨r0, rs⟩
    · rw [hr] at h
      by_cases ha : isWs a = true
      · simp [ha] at h
      · simp [ha] at h
        rw [← h]
        simpa using ha
    · rw [hr] at h
      rw [List.getLast?_cons_cons] at h
      exact ih (by rw [hr]; exact h)

lemma rstripWs_shape (a : Char) (t : List Char) :
    rstripWs (a :: t) = [] ∨ ∃ r, rstripWs (a :: t) = a :: r := by
  rw [rstripWs]
  rcases hr : rstripWs t with _ | ⟨r0, rs⟩
  · by_cases ha : isWs a = true
    · simp [ha]
    · simp [ha]
  · exact Or.inr ⟨r0 :: rs, rfl⟩

lemma rstripWs_head {l : List Char} {c : Char}
    (h : (rstripWs l).head? = some c) : l.head? = some c := by
  cases l with
  | nil => simp [rstripWs] at h
  | cons a t =>
    rcases rstripWs_shape a t with hsh | ⟨r, hsh⟩
    · rw [hsh] at h
      simp at h
    · rw [hsh] at h
      simp at h
      simp [h]

lemma noWsRun_append_left {xs ys : List Char}
    (h : noWsRun (xs ++ ys) = true) : noWsRun xs = true := by
  induction xs with
  | nil => rfl
  | cons x t ih =>
    cases t with
    | nil => rfl
    | cons y t' =>
      rw [noWsRun]
      simp only [Bool.and_eq_true]
      rw [List.cons_append, List.cons_append, noWsRun] at h
      simp only [Bool.and_eq_true] at h
      exact ⟨h.1, ih h.2⟩

lemma rstripWs_append (l : List Char) : ∃ u, l = rstripWs l ++ u := by
  induction l with
  | nil => exact ⟨[], rfl⟩
  | cons a t ih =>
    rcases ih with ⟨u, hu⟩
    rw [rstripWs]
    rcases hr : rstripWs t with _ | ⟨r0, rs⟩
    · by_cases ha : isWs a = true
      · rw [if_pos ha]
        exact ⟨a :: t, rfl⟩
      · rw [if_neg ha]
        refine ⟨t, ?_⟩
        simp
    · refine ⟨u, ?_⟩
      rw [hr] at hu
      simp [hu]

lemma noWsRun_rstripWs {l : List Char} (h : noWsRun l = true) :
    noWsRun (rstripWs l) = true := by
  rcases rstripWs_append l with ⟨u, hu⟩
  rw [hu] at h
  exact noWsRun_append_left h

lemma rstripWs_eq_self {l : List Char}
    (h : ∀ c, l.getLast? = some c → isWs c = false) : rstripWs l = l := by
  induction l with
  | nil => rfl
  | cons a t ih =>
    cases t with
    | nil =>
      have := h a (by simp)
      simp [rstripWs, this]
    | cons b t' =>
      have htail : rstripWs (b :: t') = b :: t' :=
        ih (fun c hc => h c (by rw [List.getLast?_cons_cons]; exact hc))
      rw [rstripWs, htail]

lemma stripWs_mem {l : List Char} {c : Char} (h : c ∈ stripWs l) : c ∈ l :=
  mem_of_mem_dropWhileWs (rstripWs_mem h)

lemma stripWs_head_not_ws {l : List Char} {c : Char}
    (h : (stripWs l).head? = some c) : isWs c = false :=
  dropWhileWs_head (rstripWs_head h)

lemma stripWs_getLast_not_ws {l : List Char} {c : Char}
    (h : (stripWs l).getLast? = some c) : isWs c = false :=
  rstripWs_getLast h

lemma noWsRun_stripWs {l : List Char} (h : noWsRun l = true) :
    noWsRun (stripWs l) = true :=
  noWsRun_rstripWs (noWsRun_dropWhileWs h)

lemma stripWs_eq_self {l : List Char}
    (hh : ∀ c, l.head? = some c → isWs c = false)
    (hl : ∀ c, l.getLast? = some c → isWs c = false) : stripWs l = l := by
  unfold stripWs
  rw [dropWhileWs_eq_self hh]
  exact rstripWs_eq_self hl

lemma collapseWs_mem {s : List Char} {c : Char} (h : c ∈ collapseWs s) :
    c = ' ' ∨ c ∈ s :=
  squeezeWs_mem (stripWs_mem h)

lemma collapseWs_ws_mem {s : List Char} {c : Char} (h : c ∈ collapseWs s)
    (hw : isWs c = true) : c = ' ' :=
  squeezeWs_ws_mem (stripWs_mem h) hw

lemma collapseWs_noRun (s : List Char) : noWsRun (collapseWs s) = true :=
  noWsRun_stripWs (squeezeWs_noRun s)

lemma collapseWs_head_not_ws {s : List Char} {c : Char}
    (h : (collapseWs s).head? = some c) : isWs c = false :=
  stripWs_head_not_ws h

lemma collapseWs_getLast_not_ws {s : List Char} {c : Char}
    (h : (collapseWs s).getLast? = some c) : isWs c = false :=
  stripWs_getLast_not_ws h

lemma collapseWs_eq_self {l : List Char}
    (h1 : ∀ c ∈ l, isWs c = true → c = ' ') (h2 : noWsRun l = true)
    (hh : ∀ c, l.head? = some c → isWs c = false)
    (hl : ∀ c, l.getLast? = some c → isWs c = false) : collapseWs l = l := by
  unfold collapseWs
  rw [squeezeWs_eq_self h1 h2]
  exact stripWs_eq_self hh hl

lemma normalize_ar_mem {s : List Char} {c : Char} (h : c ∈ normalize_ar s) :
    isArabicDiacritic c = false ∧ mapLetter c = c ∧ keepChar c = true := by
  unfold normalize_ar at h
  by_cases hs : s = []
  · rw [if_pos hs] at h
    simp at h
  · rw [if_neg hs] at h
    rcases collapseWs_mem h with hsp | hmem
    · subst hsp
      refine ⟨by decide, by decide, by decide⟩
    · rcases List.mem_map.mp hmem with ⟨d, hd, hdc⟩
      rcases List.mem_map.mp hd with ⟨e, he, hed⟩
      have hend : isArabicDiacritic e = false := by
        have := List.of_mem_filter he
        simpa using this
      have hdnd : isArabicDiacritic d = false := by
        rw [← hed]
        exact mapLetter_nondiacritic hend
      have hdfix : mapLetter d = d := by
        rw [← hed]
        exact mapLetter_mapLetter e
      by_cases hk : keepChar d = true
      · rw [if_pos hk] at hdc
        subst hdc
        exact ⟨hdnd, hdfix, hk⟩
      · rw [if_neg hk] at hdc
        subst hdc
        refine ⟨by decide, by decide, by decide⟩

lemma normalize_ar_ws_mem {s : List Char} {c : Char} (h : c ∈ normalize_ar s)
    (hw : isWs c = true) : c = ' ' := by
  unfold normalize_ar at h
  by_cases hs : s = []
  · rw [if_pos hs] at h
    simp at h
  · rw [if_neg hs] at h
    exact collapseWs_ws_mem h hw

lemma normalize_ar_noRun (s : List Char) : noWsRun (normalize_ar s) = true := by
  unfold normalize_ar
  by_cases hs : s = []
  · rw [if_pos hs]
    rfl
  · rw [if_neg hs]
    exact collapseWs_noRun _

lemma normalize_ar_head_not_ws {s : List Char} {c : Char}
    (h : (normalize_ar s).head? = some c) : isWs c = false := by
  unfold normalize_ar at h
  by_cases hs : s = []
  · rw [if_pos hs] at h
    simp at h
  · rw [if_neg hs] at h
    exact collapseWs_head_not_ws h

lemma normalize_ar_getLast_not_ws {s : List Char} {c : Char}
    (h : (normalize_ar s).getLast? = some c) : isWs c = false := by
  unfold normalize_ar at h
  by_cases hs : s = []
  · rw [if_pos hs] at h
    simp at h
  · rw [if_neg hs] at h
    exact collapseWs_getLast_not_ws h

/-- C5: normalization is idempotent —
`normalize_ar (normalize_ar s) = normalize_ar s` for every input, the
empty string included. -/
theorem normalize_ar_idempotent (s : List Char) :
    normalize_ar (normalize_ar s) = normalize_ar s := by
  by_cases hr : normalize_ar s = []
  · rw [hr]
    rfl
  · conv_lhs => rw [normalize_ar]
    rw [if_neg hr]
    have hfilter : (normalize_ar s).filter (fun c => !isArabicDiacritic c) = normalize_ar s := by
      rw [List.filter_eq_self]
      intro c hc
      simp [(normalize_ar_mem hc).1]
    rw [hfilter]
    have hmap1 : (normalize_ar s).map mapLetter = normalize_ar s := by
      rw [List.map_congr_left (fun c hc => (normalize_ar_mem hc).2.1)]
      exact List.map_id _
    rw [hmap1]
    have hmap2 : (normalize_ar s).map (fun c => if keepChar c then c else ' ') =
        normalize_ar s := by
      rw [List.map_congr_left (fun c hc => if_pos ((normalize_ar_mem hc).2.2))]
      exact List.map_id _
    rw [hmap2]
    exact collapseWs_eq_self
      (fun c hc hw => normalize_ar_ws_mem hc hw)
      (normalize_ar_noRun s)
      (fun c hc => normalize_ar_head_not_ws hc)
      (fun c hc => normalize_ar_getLast_not_ws hc)
